import Mathlib

/-
Verification of the `logs` package: a context-scoped log-aggregation
library.  The development shallowly embeds the Go source:

* `Level`, the ordered log-level enumeration (`logs.go`).
* `GoVal`, a universe of Go values as they matter to this library: JSON
  marshalable values, with a `named` flag on maps distinguishing the
  defined type `FreeformEntry` from the unnamed type `map[string]any`
  (a Go type assertion `x.(map[string]any)` fails when the dynamic type
  of `x` is the defined map type `FreeformEntry`, and `keyValue.adjust`
  relies on exactly that assertion), and an element-type tag on slices
  (the assertion `m[k].([]T)` in `Append` succeeds only for the exact
  slice type).  Maps are modeled as association lists with value
  semantics: Go map values reachable only through the public API of one
  entry form trees, and interior aliasing via direct entry manipulation
  is outside this model.
* `marshalVal`, a model of the external primitive `json.Marshal` on this
  universe: objects render with keys sorted lexicographically, matching
  the observable output of `encoding/json` for maps.
* the entry store (`addEntry`, `getEntry`, level setters, `print`) over
  a context modeled as the stack of values attached under the single
  context key `eKey`; Go's `ctx.Value(eKey)` returns the nearest such
  value and the subsequent type assertion checks only that one value.
* the freeform path mutator (`keyValue.adjust`, `toKeyValues`, `Add`,
  `Append`) from `free-form.go`.  A Go runtime panic (index out of
  range in `toKeyValues`) is modeled as `Except.error`.
* the HTTP middleware's `HttpData` assembly from `free-form.go`; the
  handler, body tee and clock are external and enter as parameters.

Wall-clock time is modeled by its RFC3339 rendering (a `String`) and
durations by `Int` nanoseconds; both are produced by external
collaborators (`time`, `Timer`) and only carried through here.
-/

namespace Logs

/-- Go source: `type Level int` with constants DEBUG, INFO, WARN, ERROR,
FATAL declared via iota (logs.go). -/
inductive Level where
  | DEBUG
  | INFO
  | WARN
  | ERROR
  | FATAL
  deriving DecidableEq, Repr

/-- Numeric value of a `Level`, as produced by the iota declaration. -/
def Level.toNat : Level → Nat
  | .DEBUG => 0
  | .INFO => 1
  | .WARN => 2
  | .ERROR => 3
  | .FATAL => 4

/-- Go source: `func (l Level) String() string` (logs.go).  The UNKNOWN
branch is unreachable for the five declared constants. -/
def Level.str : Level → String
  | .DEBUG => "DEBUG"
  | .INFO => "INFO"
  | .WARN => "WARN"
  | .ERROR => "ERROR"
  | .FATAL => "FATAL"

/-- Element-type tag of a Go slice `[]T`; the type assertion
`m[k].([]T)` in `Append` succeeds exactly when the dynamic element type
matches. -/
inductive GoTy where
  | tstring
  | tint
  | tbool
  | tany
  | tother (n : Nat)
  deriving DecidableEq, Repr

/-- Universe of Go `any` values stored in log entries.  `vmap true m`
is a value of the defined map type `FreeformEntry`; `vmap false m` is a
value of the unnamed type `map[string]any`.  Both marshal identically,
but only the latter passes the type assertion `.(map[string]any)`. -/
inductive GoVal where
  | vnull
  | vbool (b : Bool)
  | vint (n : Int)
  | vstr (s : String)
  | vslice (t : GoTy) (xs : List GoVal)
  | vmap (named : Bool) (m : List (String × GoVal))
  deriving Repr

/-- Go source: `type FreeformEntry map[string]any` (free-form.go),
modeled as an association list. -/
def FreeformEntry := List (String × GoVal)

/-- The character `\x7b` (opening curly brace), used by `print`'s test
`bytes.Index(data, []byte("\x7b")) == 0`. -/
def lbrace : Char := Char.ofNat 123

/-- The character `\x7d` (closing curly brace), used by `print`'s test
`bytes.Index(data, []byte("\x7d")) == 1`. -/
def rbrace : Char := Char.ofNat 125

/-- First index of character `c`, model of `bytes.Index` with a
one-byte needle (all characters compared by `print` are ASCII). -/
def bidxAux (c : Char) : List Char → Option Nat
  | [] => none
  | x :: xs => if x = c then some 0 else (bidxAux c xs).map (· + 1)

/-- Model of `bytes.Index(data, []byte{c})`. -/
def bidx (s : String) (c : Char) : Option Nat :=
  bidxAux c s.toList

/-- Decimal digit characters, used by the model of the external
`json.Marshal` primitive when rendering integers. -/
def digitChar : Nat → Char
  | 0 => '0'
  | 1 => '1'
  | 2 => '2'
  | 3 => '3'
  | 4 => '4'
  | 5 => '5'
  | 6 => '6'
  | 7 => '7'
  | 8 => '8'
  | _ => '9'

/-- Fuel-based decimal rendering of a natural number (most significant
digit first); fuel `n + 1` always suffices. -/
def natDigits : Nat → Nat → List Char
  | 0, _ => []
  | fuel + 1, n =>
    if n < 10 then [digitChar n]
    else natDigits fuel (n / 10) ++ [digitChar (n % 10)]

/-- Decimal rendering of an integer, as `json.Marshal` renders Go ints. -/
def marshalInt : Int → String
  | .ofNat n => ⟨natDigits (n + 1) n⟩
  | .negSucc n => "-" ++ (⟨natDigits (n + 2) (n + 1)⟩ : String)

/-- JSON string escaping for one character (model of the external
encoder's escaping; the characters relevant to this library need none). -/
def escChar (c : Char) : List Char :=
  if c = '"' then ['\\', '"']
  else if c = '\\' then ['\\', '\\']
  else if c = '\n' then ['\\', 'n']
  else if c = '\t' then ['\\', 't']
  else if c = '\r' then ['\\', 'r']
  else [c]

/-- JSON string escaping (model of the external encoder). -/
def jsonEscape (s : String) : String :=
  ⟨s.toList.foldr (fun c acc => escChar c ++ acc) []⟩

/-- Byte-wise comparison of character lists, model of Go's `<=` on
strings (`encoding/json` sorts map keys with it). -/
def strLeAux : List Char → List Char → Bool
  | [], _ => true
  | _ :: _, [] => false
  | a :: as, b :: bs =>
    if a.toNat < b.toNat then true
    else if b.toNat < a.toNat then false
    else strLeAux as bs

/-- Byte-wise `<=` on strings. -/
def strLe (a b : String) : Bool :=
  strLeAux a.toList b.toList

/-- Insert one rendered map entry into a key-sorted list of rendered
entries (insertion step of the key sort `encoding/json` applies to
maps). -/
def insRendered (p : String × String) : List (String × String) → List (String × String)
  | [] => [p]
  | q :: rest => if strLe p.1 q.1 then p :: q :: rest else q :: insRendered p rest

/-- Sort rendered map entries by key (model of `encoding/json` sorting
map keys before output). -/
def sortRendered : List (String × String) → List (String × String)
  | [] => []
  | p :: rest => insRendered p (sortRendered rest)

/-- Join rendered, sorted map entries as `"key":value` pairs separated
by commas. -/
def joinRendered : List (String × String) → String
  | [] => ""
  | [(k, sv)] => "\"" ++ jsonEscape k ++ "\":" ++ sv
  | (k, sv) :: q :: rest =>
    "\"" ++ jsonEscape k ++ "\":" ++ sv ++ "," ++ joinRendered (q :: rest)

mutual

/-- Model of the external primitive `json.Marshal` on `GoVal`.  The
`named` flag of a map does not affect its JSON form. -/
def marshalVal : GoVal → String
  | .vnull => "null"
  | .vbool true => "true"
  | .vbool false => "false"
  | .vint n => marshalInt n
  | .vstr s => "\"" ++ jsonEscape s ++ "\""
  | .vslice _ xs => "[" ++ marshalList xs ++ "]"
  | .vmap _ m => "\x7b" ++ joinRendered (sortRendered (renderEntries m)) ++ "\x7d"

/-- Render slice elements separated by commas. -/
def marshalList : List GoVal → String
  | [] => ""
  | [x] => marshalVal x
  | x :: y :: rest => marshalVal x ++ "," ++ marshalList (y :: rest)

/-- Render each map entry's value (keys are sorted afterwards; sorting
keys of rendered entries and rendering sorted entries agree because
rendering is per-entry). -/
def renderEntries : List (String × GoVal) → List (String × String)
  | [] => []
  | (k, v) :: rest => (k, marshalVal v) :: renderEntries rest

end

/-- Model of `strings.Split(key, ".")`: split the character list on
`.`; like the Go function, the result is never empty. -/
def goSplit (s : String) : List String :=
  (s.toList.splitOn '.').map (fun l => (⟨l⟩ : String))

/-- First binding of a key in a Go map, model of `m[k]` lookup. -/
def mapLookup (m : FreeformEntry) (k : String) : Option GoVal :=
  match m with
  | [] => none
  | (k0, v0) :: rest => if k0 = k then some v0 else mapLookup rest k

/-- Model of the Go map store `m[k] = v`: replace the binding if the
key is present, otherwise add it. -/
def mapInsert (m : FreeformEntry) (k : String) (v : GoVal) : FreeformEntry :=
  match m with
  | [] => [(k, v)]
  | (k0, v0) :: rest => if k0 = k then (k, v) :: rest else (k0, v0) :: mapInsert rest k v

/-- Go source: the loop of `keyValue.adjust` (free-form.go), with the
split already performed and the first segment separated so that every
case is inhabited (`strings.Split` never returns an empty slice).  At a
non-terminal segment: if the key is absent the Go code first stores
`FreeformEntry\x7b\x7d`, but the following type assertion
`current[sub].(map[string]any)` fails on that defined type just as it
does on any other non-`map[string]any` value, so in every case other
than a present unnamed map a fresh empty `map[string]any` is stored and
descended into.  The leaf operation returns the updated map and the
flag the Go closures communicate through a captured variable. -/
def adjustSegs (leaf : FreeformEntry → String → FreeformEntry × Bool) :
    String → List String → FreeformEntry → FreeformEntry × Bool
  | sub, [], m => leaf m sub
  | sub, next :: rest, m =>
    match mapLookup m sub with
    | some (.vmap false inner) =>
      let r := adjustSegs leaf next rest inner
      (mapInsert m sub (.vmap false r.1), r.2)
    | _ =>
      let r := adjustSegs leaf next rest ([] : FreeformEntry)
      (mapInsert m sub (.vmap false r.1), r.2)

/-- Go source: `keyValue.adjust` (free-form.go): split the dotted key
and walk the segments. -/
def kvAdjust (key : String) (m : FreeformEntry)
    (leaf : FreeformEntry → String → FreeformEntry × Bool) : FreeformEntry × Bool :=
  match goSplit key with
  | [] => (m, false)
  | sub :: rest => adjustSegs leaf sub rest m

/-- Leaf operation of `keyValues.adjust`: `m[k] = kv.Value`. -/
def leafSet (v : GoVal) : FreeformEntry → String → FreeformEntry × Bool :=
  fun m k => (mapInsert m k v, true)

/-- Go source: one `keyValue`'s effect inside `keyValues.adjust`
(free-form.go): overwrite the leaf with the given value. -/
def kvOverwrite (key : String) (v : GoVal) (m : FreeformEntry) : FreeformEntry :=
  (kvAdjust key m (leafSet v)).1

/-- Go source: `keyValues.adjust` (free-form.go): apply each key-value
pair in order. -/
def keyValuesAdjust (kvs : List (String × GoVal)) (m : FreeformEntry) : FreeformEntry :=
  kvs.foldl (fun acc kv => kvOverwrite kv.1 kv.2 acc) m

/-- Go source: `toKeyValues(args ...any)` (free-form.go).  `kvs` has
`len(args)/2` slots; at each even index `i`, if `args[i]` is a string
the code reads `args[i+1]`, which panics (index out of range) when
`i+1 == len(args)`; if `args[i]` is not a string the slot keeps the
zero value `keyValue\x7bKey: "", Value: nil\x7d`.  The panic is
modeled as `Except.error`. -/
def toKeyValues : List GoVal → Except Unit (List (String × GoVal))
  | [] => .ok []
  | [a] =>
    match a with
    | .vstr _ => .error ()
    | _ => .ok []
  | a :: b :: rest =>
    match toKeyValues rest with
    | .error u => .error u
    | .ok tl =>
      .ok ((match a with
            | .vstr k => (k, b)
            | _ => ("", GoVal.vnull)) :: tl)

/-- Go source: the `option` struct (logs.go).  The `io.Writer` is an
external collaborator: it is carried as an opaque handle and the bytes
written are returned by `print` instead. -/
structure option where
  out : Nat
  entryLevel : Level
  printLevel : Level
  timerIsFake : Bool
  body : Bool
  allHeaders : Bool
  someHeaders : List String
  now : String
  since : Int
  fakeTime : Bool
  deriving Repr

/-- The defaults built at the top of `applyOptions` (logs.go): stdout,
INFO, INFO, the system-clock timer; remaining fields keep their Go zero
values (the zero `time.Time` renders as `0001-01-01T00:00:00Z`). -/
def defaultOption : option :=
  { out := 0
    entryLevel := Level.INFO
    printLevel := Level.INFO
    timerIsFake := false
    body := false
    allHeaders := false
    someHeaders := []
    now := "0001-01-01T00:00:00Z"
    since := 0
    fakeTime := false }

/-- Go source: `applyOptions` (logs.go): fold the configuration
functions over the defaults in order, then replace the timer with the
fake timer when a fixed time was requested. -/
def applyOptions (opts : List (option → option)) : option :=
  let o := opts.foldl (fun o f => f o) defaultOption
  if o.fakeTime then { o with timerIsFake := true } else o

/-- The resolved timer's `Now()` rendered in RFC3339: the fake timer
returns the configured instant, the default timer the ambient wall
clock (a parameter of the model). -/
def timerNow (o : option) (sysNow : String) : String :=
  if o.timerIsFake then o.now else sysNow

/-- The resolved timer's `Since(start)`: the fake timer returns the
configured duration, the default timer the ambient elapsed time (a
parameter of the model). -/
def timerSince (o : option) (sysSince : Int) : Int :=
  if o.timerIsFake then o.since else sysSince

/-- Go source: `WithOutput` (logs.go). -/
def WithOutput (out : Nat) : option → option :=
  fun o => { o with out := out }

/-- Go source: `WithLevel` (logs.go). -/
def WithLevel (level : Level) : option → option :=
  fun o => { o with printLevel := level }

/-- Go source: `WithCurrentTime` (logs.go): always print with the given
timestamp. -/
def WithCurrentTime (now : String) : option → option :=
  fun o => { o with now := now, fakeTime := true }

/-- Go source: `WithDefaultLevel` (logs.go). -/
def WithDefaultLevel (level : Level) : option → option :=
  fun o => { o with entryLevel := level }

/-- Go source: `WithTiming` (logs.go): print with the given timestamp
and duration. -/
def WithTiming (now : String) (since : Int) : option → option :=
  fun o => { o with now := now, since := since, fakeTime := true }

/-- Go source: `WithBody` (free-form.go). -/
def WithBody : option → option :=
  fun o => { o with body := true }

/-- Go source: `WithAllHeaders` (free-form.go). -/
def WithAllHeaders : option → option :=
  fun o => { o with allHeaders := true }

/-- Go source: `WithHeaders` (free-form.go). -/
def WithHeaders (headers : List String) : option → option :=
  fun o => { o with someHeaders := headers }

/-- Go source: `DefaultLevel` (logs.go), alias of `WithDefaultLevel`
for the middleware. -/
def DefaultLevel (level : Level) : option → option :=
  WithDefaultLevel level

/-- Go source: `PrintLevel` (logs.go), alias of `WithLevel` for the
middleware. -/
def PrintLevel (level : Level) : option → option :=
  WithLevel level

/-- Go source: `Output` (logs.go), alias of `WithOutput` for the
middleware. -/
def Output (out : Nat) : option → option :=
  WithOutput out

/-- Tag identifying the dynamic data-shape `T` of an `entry[T]`:
`freeform` for `FreeformEntry`, `custom n` for the n-th caller-defined
structured type, whose JSON-relevant content is an arbitrary `GoVal`. -/
inductive ShapeTag where
  | freeform
  | custom (n : Nat)
  deriving DecidableEq, Repr

/-- The data carried by an entry of each shape. -/
def ShapeData : ShapeTag → Type
  | .freeform => FreeformEntry
  | .custom _ => GoVal

/-- Go source: `type entry[T any] struct` (logs.go) packaged with its
dynamic shape, as it sits in the context under the single key `eKey`. -/
structure DynEntry where
  shape : ShapeTag
  level : Level
  data : ShapeData shape

/-- A typed view of an entry, as obtained from a successful type
assertion `.(*entry[T])`. -/
structure EntryOf (t : ShapeTag) where
  level : Level
  data : ShapeData t

/-- A context branch, modeled by the stack of entries attached under
the context key `eKey`, most recent first.  Values stored under other
context keys are invisible to `ctx.Value(eKey)` and omitted. -/
def Ctx := List DynEntry

/-- The type assertion `.(*entry[T])` applied to one stored value. -/
def DynEntry.as (t : ShapeTag) (e : DynEntry) : Option (EntryOf t) :=
  if h : e.shape = t then some ⟨e.level, h ▸ e.data⟩ else none

/-- Go source: `getEntry[T]` (logs.go): `ctx.Value(eKey)` yields the
nearest value stored under `eKey` (of whatever shape); the type
assertion then checks that single value, so entries of shape `T`
deeper in the branch are not reached. -/
def getEntry (t : ShapeTag) (ctx : Ctx) : Option (EntryOf t) :=
  match ctx with
  | [] => none
  | e :: _ => e.as t

/-- Go source: `addEntry[T]` (logs.go): build a fresh data value with
the caller's constructor, set the level from the resolved options and
attach the entry, shadowing whatever was attached before. -/
def addEntry (t : ShapeTag) (init : ShapeData t) (opts : List (option → option))
    (ctx : Ctx) : Ctx :=
  (⟨t, (applyOptions opts).entryLevel, init⟩ : DynEntry) :: ctx

/-- The metadata prefix built from the template
`\x7b"@level":"%s","@time":"%s"` with an optional trailing comma
(`print`, logs.go). -/
def metaPre (lvl : Level) (now : String) (comma : Bool) : String :=
  "\x7b\"@level\":\"" ++ Level.str lvl ++ "\",\"@time\":\"" ++ now ++ "\""
    ++ (if comma then "," else "")

/-- Go source: the metadata splice inside `print` (logs.go): if the
marshaled text starts with `\x7b`, choose the template without the
trailing comma exactly when the first `\x7d` sits at index 1, replace
the original opening brace by the filled template and append a
newline; otherwise leave the text unmodified. -/
def spliceMeta (lvl : Level) (now : String) (data : String) : String :=
  if bidx data lbrace = some 0 then
    (if bidx data rbrace = some 1 then metaPre lvl now false else metaPre lvl now true)
      ++ data.drop 1 ++ "\n"
  else data

/-- `json.Marshal(entry.data)` for each shape. -/
def marshalData : (t : ShapeTag) → ShapeData t → String
  | .freeform, m => marshalVal (.vmap true m)
  | .custom _, v => marshalVal v

/-- Go source: `print[T]` (logs.go).  Returns the boolean result and
the list of writes made to the output sink.  `json.Marshal` cannot
fail on this value universe and the modeled sink accepts every write,
so the two error returns of the Go code do not arise here. -/
def print (t : ShapeTag) (ctx : Ctx) (opts : List (option → option))
    (sysNow : String) : Bool × List String :=
  match getEntry t ctx with
  | none => (false, [])
  | some e =>
    let options := applyOptions opts
    if e.level.toNat < options.printLevel.toNat then (false, [])
    else
      (true, [spliceMeta e.level (timerNow options sysNow) (marshalData t e.data)])

/-- Go source: `debug[T]` (logs.go): set the resolvable entry's level
to DEBUG, leaving its data and the rest of the branch unchanged. -/
def debug (t : ShapeTag) (ctx : Ctx) : Bool × Ctx :=
  match ctx with
  | [] => (false, [])
  | e :: rest =>
    if e.shape = t then (true, (⟨e.shape, Level.DEBUG, e.data⟩ : DynEntry) :: rest)
    else (false, e :: rest)

/-- Go source: `info[T]` (logs.go). -/
def info (t : ShapeTag) (ctx : Ctx) : Bool × Ctx :=
  match ctx with
  | [] => (false, [])
  | e :: rest =>
    if e.shape = t then (true, (⟨e.shape, Level.INFO, e.data⟩ : DynEntry) :: rest)
    else (false, e :: rest)

/-- Go source: `warn[T]` (logs.go). -/
def warn (t : ShapeTag) (ctx : Ctx) : Bool × Ctx :=
  match ctx with
  | [] => (false, [])
  | e :: rest =>
    if e.shape = t then (true, (⟨e.shape, Level.WARN, e.data⟩ : DynEntry) :: rest)
    else (false, e :: rest)

/-- Go source: `err[T]` (logs.go). -/
def err (t : ShapeTag) (ctx : Ctx) : Bool × Ctx :=
  match ctx with
  | [] => (false, [])
  | e :: rest =>
    if e.shape = t then (true, (⟨e.shape, Level.ERROR, e.data⟩ : DynEntry) :: rest)
    else (false, e :: rest)

/-- Go source: `fatal[T]` (logs.go). -/
def fatal (t : ShapeTag) (ctx : Ctx) : Bool × Ctx :=
  match ctx with
  | [] => (false, [])
  | e :: rest =>
    if e.shape = t then (true, (⟨e.shape, Level.FATAL, e.data⟩ : DynEntry) :: rest)
    else (false, e :: rest)

/-- Go source: `Add` (free-form.go): if a freeform entry is resolvable,
convert the variadic arguments to key-value pairs (which may panic on
odd-length input) and apply them in order; otherwise return false. -/
def Add (ctx : Ctx) (args : List GoVal) : Except Unit (Bool × Ctx) :=
  match ctx with
  | [] => .ok (false, [])
  | e :: rest =>
    if h : e.shape = ShapeTag.freeform then
      match toKeyValues args with
      | .error u => .error u
      | .ok kvs =>
        .ok (true,
          (⟨ShapeTag.freeform, e.level,
            keyValuesAdjust kvs (show ShapeData ShapeTag.freeform from h ▸ e.data)⟩ : DynEntry) :: rest)
    else .ok (false, e :: rest)

/-- Leaf operation of `Append` (free-form.go): create the key with the
value slice when absent; extend when the present value passes the
type assertion `.([]T)`; otherwise leave the map alone and keep the
`adjusted` flag false. -/
def appendLeaf (t : GoTy) (values : List GoVal) :
    FreeformEntry → String → FreeformEntry × Bool := fun m k =>
  match mapLookup m k with
  | none => (mapInsert m k (.vslice t values), true)
  | some (.vslice t0 xs) =>
    if t0 = t then (mapInsert m k (.vslice t (xs ++ values)), true) else (m, false)
  | some _ => (m, false)

/-- Go source: `Append[T]` (free-form.go): run `keyValue.adjust` with
the leaf closure above on the resolvable freeform entry and return the
captured `adjusted` flag; false with no change when no freeform entry
is resolvable. -/
def Append (ctx : Ctx) (key : String) (t : GoTy) (values : List GoVal) : Bool × Ctx :=
  match ctx with
  | [] => (false, [])
  | e :: rest =>
    if h : e.shape = ShapeTag.freeform then
      let r := kvAdjust key (show ShapeData ShapeTag.freeform from h ▸ e.data) (appendLeaf t values)
      (r.2, (⟨ShapeTag.freeform, e.level, r.1⟩ : DynEntry) :: rest)
    else (false, e :: rest)

/-- Go source: the `HttpData` struct (free-form.go); `Headers` is a
possibly-nil map, modeled as an `Option`. -/
structure HttpData where
  method : String
  path : String
  headers : Option (List (String × String))
  body : String
  duration : Int
  deriving Repr

/-- Model of `r.Header.Get(k)`: first value stored under the key, or
the empty string (header canonicalization is performed by the external
`net/textproto` and keys are taken as already canonical). -/
def headerGet (hdrs : List (String × List String)) (k : String) : String :=
  match hdrs.find? (fun p => p.1 == k) with
  | some (_, v :: _) => v
  | _ => ""

/-- Go source: the `HttpData` assembly in `Middleware` (free-form.go):
method and path from the request; the body only when capture is
enabled; the duration from the resolved timer; headers from the
explicit list when it is non-empty, else all request headers when the
all-headers flag is set, else none.  The handler's execution and the
body tee are external; the captured body text and the ambient elapsed
time enter as parameters. -/
def middlewareHttpData (opt : option) (method path : String)
    (reqHeaders : List (String × List String)) (captured : String)
    (sysSince : Int) : HttpData :=
  { method := method
    path := path
    body := if opt.body then captured else ""
    duration := timerSince opt sysSince
    headers :=
      if opt.someHeaders.length > 0 then
        some (opt.someHeaders.map (fun h => (h, headerGet reqHeaders h)))
      else if opt.allHeaders then
        some (reqHeaders.map (fun p => (p.1, headerGet reqHeaders p.1)))
      else none }

/-- Keys of a map are pairwise distinct, the invariant every Go map
satisfies; the association-list representation must assume it
explicitly. -/
def nodupKeys : FreeformEntry → Bool
  | [] => true
  | (k, _) :: rest => rest.all (fun p => !(p.1 == k)) && nodupKeys rest

/-- All bindings of a key at the final level of a map. -/
def bindingsFor (m : FreeformEntry) (k : String) : List GoVal :=
  (m.filter (fun p => p.1 == k)).map Prod.snd

/-- All values stored at a dotted path: descend through nested maps
(of either map type) and collect the terminal key's bindings. -/
def bindingsPath (m : FreeformEntry) : List String → List GoVal
  | [] => []
  | [s] => bindingsFor m s
  | s :: next :: rest =>
    match mapLookup m s with
    | some (.vmap _ inner) => bindingsPath inner (next :: rest)
    | _ => []

/-- The Go-map key invariant along one dotted path: distinct keys at
each level the traversal of `keyValue.adjust` descends through. -/
def pathOk : String → List String → FreeformEntry → Bool
  | _, [], m => nodupKeys m
  | s, next :: rest, m =>
    nodupKeys m &&
      (match mapLookup m s with
       | some (.vmap false inner) => pathOk next rest inner
       | _ => true)

/-- The map a non-terminal traversal step of `keyValue.adjust` descends
into: the present value when it is an unnamed `map[string]any`, a fresh
empty map in every other case (absent key, value of the defined map
type `FreeformEntry`, or non-map value). -/
def descendTarget (m : FreeformEntry) (s : String) : FreeformEntry :=
  match mapLookup m s with
  | some (.vmap false inner) => inner
  | _ => []

/-- The Go-map key invariant along the path of a dotted key. -/
def pathOkKey (k : String) (m : FreeformEntry) : Bool :=
  match goSplit k with
  | [] => true
  | s :: rest => pathOk s rest m

/-- Descend non-terminal segments through present unnamed maps only,
returning the leaf map and terminal key; `none` when some non-terminal
segment does not hold a `map[string]any` value. -/
def plainLeafAt : String → List String → FreeformEntry → Option (FreeformEntry × String)
  | s, [], m => some (m, s)
  | s, next :: rest, m =>
    match mapLookup m s with
    | some (.vmap false inner) => plainLeafAt next rest inner
    | _ => none

/-- The dynamic type test `.([]T)`: is this value a slice with element
type `t`? -/
def sliceOfTy (t : GoTy) : GoVal → Bool
  | .vslice t0 _ => t0 == t
  | _ => false

/-- Does the entry's data, viewed as a JSON object, have at least one
original key?  Modelled from the spec's words "a comma if the object
has any original keys, or no comma if the object was empty", to be
compared with the byte test `bytes.Index(data, []byte("\x7d")) == 1`
the code uses. -/
def hasOriginalKeys : (t : ShapeTag) → ShapeData t → Bool
  | .freeform, m => !m.isEmpty
  | .custom _, .vmap _ m => !m.isEmpty
  | .custom _, _ => false

theorem mapLookup_mapInsert_self (m : FreeformEntry) (k : String) (v : GoVal) :
    mapLookup (mapInsert m k v) k = some v := by
  induction m with
  | nil => simp [mapInsert, mapLookup]
  | cons p rest ih =>
    obtain ⟨k0, v0⟩ := p
    by_cases h : k0 = k
    · simp [mapInsert, mapLookup, h]
    · simp [mapInsert, mapLookup, h, ih]

theorem mapLookup_mapInsert_ne (m : FreeformEntry) (k j : String) (v : GoVal)
    (h : j ≠ k) : mapLookup (mapInsert m k v) j = mapLookup m j := by
  have hkj : k ≠ j := Ne.symm h
  induction m with
  | nil => simp [mapInsert, mapLookup, hkj]
  | cons p rest ih =>
    obtain ⟨k0, v0⟩ := p
    by_cases h0 : k0 = k
    · subst h0
      simp [mapInsert, mapLookup, hkj]
    · simp [mapInsert, if_neg h0, mapLookup, ih]

theorem mapInsert_lookup_self (m : FreeformEntry) (k : String) (v : GoVal)
    (h : mapLookup m k = some v) : mapInsert m k v = m := by
  induction m with
  | nil => simp [mapLookup] at h
  | cons p rest ih =>
    obtain ⟨k0, v0⟩ := p
    by_cases h0 : k0 = k
    · subst h0
      simp [mapLookup] at h
      simp [mapInsert, h]
    · simp [mapLookup, h0] at h
      simp [mapInsert, h0, ih h]

theorem allKeysNe_mapInsert (m : FreeformEntry) (k k0 : String) (v : GoVal)
    (hm : m.all (fun p => !(p.1 == k0)) = true) (hk : k ≠ k0) :
    (mapInsert m k v).all (fun p => !(p.1 == k0)) = true := by
  induction m with
  | nil => simpa [mapInsert] using hk
  | cons p rest ih =>
    obtain ⟨k1, v1⟩ := p
    simp only [List.all_cons, Bool.and_eq_true] at hm
    by_cases h1 : k1 = k
    · simp [mapInsert, h1, hm.2, hk]
    · simp [mapInsert, h1, hm.1, ih hm.2]

theorem nodupKeys_mapInsert (m : FreeformEntry) (k : String) (v : GoVal)
    (h : nodupKeys m = true) : nodupKeys (mapInsert m k v) = true := by
  induction m with
  | nil => simp [mapInsert, nodupKeys]
  | cons p rest ih =>
    obtain ⟨k0, v0⟩ := p
    simp only [nodupKeys, Bool.and_eq_true] at h
    by_cases h0 : k0 = k
    · subst h0
      simp [mapInsert, nodupKeys, h.1, h.2]
    · have hne : k ≠ k0 := fun hh => h0 hh.symm
      simp [mapInsert, nodupKeys, h0, ih h.2, allKeysNe_mapInsert rest k k0 v h.1 hne]

theorem filter_eq_nil_of_allNe (m : FreeformEntry) (k : String)
    (h : m.all (fun p => !(p.1 == k)) = true) :
    m.filter (fun p => p.1 == k) = [] := by
  induction m with
  | nil => rfl
  | cons p rest ih =>
    simp only [List.all_cons, Bool.and_eq_true, Bool.not_eq_eq_eq_not, Bool.not_true] at h
    simp [List.filter, h.1, ih h.2]

theorem bindingsFor_mapInsert (m : FreeformEntry) (k : String) (v : GoVal)
    (h : nodupKeys m = true) : bindingsFor (mapInsert m k v) k = [v] := by
  induction m with
  | nil => simp [mapInsert, bindingsFor, List.filter]
  | cons p rest ih =>
    obtain ⟨k0, v0⟩ := p
    simp only [nodupKeys, Bool.and_eq_true] at h
    by_cases h0 : k0 = k
    · subst h0
      simp [mapInsert, bindingsFor, List.filter, filter_eq_nil_of_allNe rest k0 h.1]
    · have : (k0 == k) = false := by simpa using h0
      simp only [mapInsert, if_neg h0, bindingsFor, List.filter, this]
      exact ih h.2

theorem goSplit_ne_nil (s : String) : goSplit s ≠ [] := by
  simp only [goSplit, ne_eq, List.map_eq_nil_iff]
  exact List.splitOnP_ne_nil _ _

theorem pathOk_nil_map (s : String) (rest : List String) : pathOk s rest [] = true := by
  cases rest <;> rfl

theorem adjustSegs_cons (leaf : FreeformEntry → String → FreeformEntry × Bool)
    (s r : String) (rs : List String) (m : FreeformEntry) :
    adjustSegs leaf s (r :: rs) m =
      (mapInsert m s (.vmap false (adjustSegs leaf r rs (descendTarget m s)).1),
       (adjustSegs leaf r rs (descendTarget m s)).2) := by
  cases hm : mapLookup m s with
  | none => simp [adjustSegs, descendTarget, hm]
  | some w =>
    cases w with
    | vmap named inner => cases named <;> simp [adjustSegs, descendTarget, hm]
    | vnull => simp [adjustSegs, descendTarget, hm]
    | vbool b => simp [adjustSegs, descendTarget, hm]
    | vint n => simp [adjustSegs, descendTarget, hm]
    | vstr s0 => simp [adjustSegs, descendTarget, hm]
    | vslice t xs => simp [adjustSegs, descendTarget, hm]

theorem pathOk_cons (s r : String) (rs : List String) (m : FreeformEntry) :
    pathOk s (r :: rs) m = (nodupKeys m && pathOk r rs (descendTarget m s)) := by
  cases hm : mapLookup m s with
  | none => simp [pathOk, descendTarget, hm, pathOk_nil_map]
  | some w =>
    cases w with
    | vmap named inner =>
      cases named <;> simp [pathOk, descendTarget, hm, pathOk_nil_map]
    | vnull => simp [pathOk, descendTarget, hm, pathOk_nil_map]
    | vbool b => simp [pathOk, descendTarget, hm, pathOk_nil_map]
    | vint n => simp [pathOk, descendTarget, hm, pathOk_nil_map]
    | vstr s0 => simp [pathOk, descendTarget, hm, pathOk_nil_map]
    | vslice t xs => simp [pathOk, descendTarget, hm, pathOk_nil_map]

theorem bindingsPath_adjustSegs_leafSet (rest : List String) (s : String)
    (m : FreeformEntry) (v : GoVal) (h : pathOk s rest m = true) :
    bindingsPath (adjustSegs (leafSet v) s rest m).1 (s :: rest) = [v] := by
  induction rest generalizing s m with
  | nil =>
    simp only [pathOk] at h
    simp [adjustSegs, leafSet, bindingsPath, bindingsFor_mapInsert m s v h]
  | cons r rs ih =>
    rw [pathOk_cons, Bool.and_eq_true] at h
    rw [adjustSegs_cons]
    simp only [bindingsPath, mapLookup_mapInsert_self]
    exact ih r (descendTarget m s) h.2

theorem pathOk_adjustSegs_leafSet (rest : List String) (s : String)
    (m : FreeformEntry) (v : GoVal) (h : pathOk s rest m = true) :
    pathOk s rest (adjustSegs (leafSet v) s rest m).1 = true := by
  induction rest generalizing s m with
  | nil =>
    simp only [pathOk] at h ⊢
    exact nodupKeys_mapInsert m s v h
  | cons r rs ih =>
    rw [pathOk_cons, Bool.and_eq_true] at h
    rw [adjustSegs_cons, pathOk_cons, Bool.and_eq_true]
    refine ⟨nodupKeys_mapInsert _ _ _ h.1, ?_⟩
    simp only [descendTarget, mapLookup_mapInsert_self]
    exact ih r (descendTarget m s) h.2

theorem adjustSegs_noop (rest : List String) (s : String) (m leafm : FreeformEntry)
    (lastk : String) (f : FreeformEntry → String → FreeformEntry × Bool)
    (hleaf : plainLeafAt s rest m = some (leafm, lastk))
    (hf : f leafm lastk = (leafm, false)) :
    adjustSegs f s rest m = (m, false) := by
  induction rest generalizing s m with
  | nil =>
    simp only [plainLeafAt, Option.some.injEq, Prod.mk.injEq] at hleaf
    obtain ⟨h1, h2⟩ := hleaf
    subst h1; subst h2
    simpa [adjustSegs] using hf
  | cons r rs ih =>
    cases hm : mapLookup m s with
    | none => simp [plainLeafAt, hm] at hleaf
    | some w =>
      cases w with
      | vmap named inner =>
        cases named with
        | false =>
          simp only [plainLeafAt, hm] at hleaf
          rw [adjustSegs_cons]
          have hdt : descendTarget m s = inner := by simp [descendTarget, hm]
          rw [hdt, ih r inner hleaf]
          simp [mapInsert_lookup_self m s _ hm]
        | true => simp [plainLeafAt, hm] at hleaf
      | vnull => simp [plainLeafAt, hm] at hleaf
      | vbool b => simp [plainLeafAt, hm] at hleaf
      | vint n => simp [plainLeafAt, hm] at hleaf
      | vstr s0 => simp [plainLeafAt, hm] at hleaf
      | vslice t xs => simp [plainLeafAt, hm] at hleaf

theorem mapLookup_adjustSegs_leafSet_ne (rest : List String) (s j : String)
    (m : FreeformEntry) (v : GoVal) (h : j ≠ s) :
    mapLookup (adjustSegs (leafSet v) s rest m).1 j = mapLookup m j := by
  cases rest with
  | nil => simp [adjustSegs, leafSet, mapLookup_mapInsert_ne m s j v h]
  | cons r rs => rw [adjustSegs_cons]; exact mapLookup_mapInsert_ne m s j _ h

theorem Add_pair (lvl : Level) (rest0 : Ctx) (m : FreeformEntry) (k : String) (v : GoVal) :
    Add ((⟨ShapeTag.freeform, lvl, m⟩ : DynEntry) :: rest0) [.vstr k, v]
      = .ok (true, (⟨ShapeTag.freeform, lvl, kvOverwrite k v m⟩ : DynEntry) :: rest0) := rfl

/-- Claim C8: for every freeform entry (with the Go-map invariant of
distinct keys along the path), key `k` and values `v1`, `v2`,
performing `Add(k, v1)` and then `Add(k, v2)` succeeds both times and
leaves exactly one value stored at `k`, equal to `v2`: the second
`Add` unconditionally overwrites the first. -/
theorem c8 (lvl : Level) (rest0 : Ctx) (m : FreeformEntry) (k : String) (v1 v2 : GoVal)
    (h : pathOkKey k m = true) :
    Add ((⟨ShapeTag.freeform, lvl, m⟩ : DynEntry) :: rest0) [.vstr k, v1]
      = .ok (true, (⟨ShapeTag.freeform, lvl, kvOverwrite k v1 m⟩ : DynEntry) :: rest0)
    ∧ Add ((⟨ShapeTag.freeform, lvl, kvOverwrite k v1 m⟩ : DynEntry) :: rest0) [.vstr k, v2]
      = .ok (true,
          (⟨ShapeTag.freeform, lvl, kvOverwrite k v2 (kvOverwrite k v1 m)⟩ : DynEntry) :: rest0)
    ∧ bindingsPath (kvOverwrite k v2 (kvOverwrite k v1 m)) (goSplit k) = [v2] := by
  refine ⟨Add_pair lvl rest0 m k v1, Add_pair lvl rest0 (kvOverwrite k v1 m) k v2, ?_⟩
  cases hsp : goSplit k with
  | nil => exact absurd hsp (goSplit_ne_nil k)
  | cons s rest =>
    simp only [pathOkKey, hsp] at h
    simp only [kvOverwrite, kvAdjust, hsp]
    exact bindingsPath_adjustSegs_leafSet rest s _ v2 (pathOk_adjustSegs_leafSet rest s m v1 h)

/-- Witness for C8 at the concrete input `m = \x7b\x7d`, `k = "a.b"`,
`v1 = 1`, `v2 = 2`. -/
theorem c8_witness :
    Add ((⟨ShapeTag.freeform, Level.INFO, ([] : FreeformEntry)⟩ : DynEntry) :: [])
        [.vstr "a.b", .vint 1]
      = .ok (true,
          (⟨ShapeTag.freeform, Level.INFO, kvOverwrite "a.b" (.vint 1) []⟩ : DynEntry) :: [])
    ∧ Add ((⟨ShapeTag.freeform, Level.INFO, kvOverwrite "a.b" (.vint 1) []⟩ : DynEntry) :: [])
        [.vstr "a.b", .vint 2]
      = .ok (true,
          (⟨ShapeTag.freeform, Level.INFO,
            kvOverwrite "a.b" (.vint 2) (kvOverwrite "a.b" (.vint 1) [])⟩ : DynEntry) :: [])
    ∧ bindingsPath (kvOverwrite "a.b" (.vint 2) (kvOverwrite "a.b" (.vint 1) []))
        (goSplit "a.b") = [.vint 2] :=
  c8 Level.INFO [] [] "a.b" (.vint 1) (.vint 2) (by decide)

theorem appendLeaf_noop (t : GoTy) (values : List GoVal) (leafm : FreeformEntry)
    (lastk : String) (v : GoVal) (hv : mapLookup leafm lastk = some v)
    (hty : sliceOfTy t v = false) : appendLeaf t values leafm lastk = (leafm, false) := by
  cases v with
  | vslice t0 xs =>
    have ht : ¬ t0 = t := by simpa [sliceOfTy] using hty
    simp [appendLeaf, hv, ht]
  | vnull => simp [appendLeaf, hv]
  | vbool b => simp [appendLeaf, hv]
  | vint n => simp [appendLeaf, hv]
  | vstr s => simp [appendLeaf, hv]
  | vmap named mm => simp [appendLeaf, hv]

/-- Claim C6 (amended): for every freeform entry, dotted key whose
non-terminal segments all hold plain `map[string]any` values (so the
traversal reaches the stored leaf), and element type `T`: when the
value present at the terminal key is not a slice of element type `T`,
`Append` returns false and leaves the entry (in particular the value
stored at the key) unchanged. -/
theorem c6_amended (lvl : Level) (rest0 : Ctx) (m : FreeformEntry) (k : String)
    (t : GoTy) (values : List GoVal) (s : String) (rs : List String)
    (leafm : FreeformEntry) (lastk : String) (v : GoVal)
    (hsp : goSplit k = s :: rs)
    (hleaf : plainLeafAt s rs m = some (leafm, lastk))
    (hv : mapLookup leafm lastk = some v)
    (hty : sliceOfTy t v = false) :
    Append ((⟨ShapeTag.freeform, lvl, m⟩ : DynEntry) :: rest0) k t values
      = (false, (⟨ShapeTag.freeform, lvl, m⟩ : DynEntry) :: rest0) := by
  have hno := adjustSegs_noop rs s m leafm lastk (appendLeaf t values) hleaf
    (appendLeaf_noop t values leafm lastk v hv hty)
  have hA : Append ((⟨ShapeTag.freeform, lvl, m⟩ : DynEntry) :: rest0) k t values
      = ((kvAdjust k m (appendLeaf t values)).2,
         (⟨ShapeTag.freeform, lvl, (kvAdjust k m (appendLeaf t values)).1⟩ : DynEntry) :: rest0) :=
    rfl
  rw [hA]
  simp only [kvAdjust, hsp]
  rw [hno]

/-- Witness for C6 (amended) at the concrete entry
`\x7b"a": \x7b"b": 5\x7d\x7d` (with a plain nested map) and
`Append("a.b", "x")`. -/
theorem c6_witness :
    Append ((⟨ShapeTag.freeform, Level.INFO,
          ([("a", .vmap false [("b", .vint 5)])] : FreeformEntry)⟩ : DynEntry) :: [])
        "a.b" GoTy.tstring [.vstr "x"]
      = (false, (⟨ShapeTag.freeform, Level.INFO,
          ([("a", .vmap false [("b", .vint 5)])] : FreeformEntry)⟩ : DynEntry) :: []) :=
  c6_amended Level.INFO [] [("a", .vmap false [("b", .vint 5)])] "a.b" GoTy.tstring
    [.vstr "x"] "a" ["b"] [("b", .vint 5)] "b" (.vint 5) (by decide) rfl rfl rfl

/-- Counterexample to C6 as stated: the entry
`\x7b"a": FreeformEntry\x7b"b": 5\x7d\x7d` (reachable by
`Add("a", FreeformEntry\x7b"b": 5\x7d)`, first conjunct) stores the
value `5` at the key `"a.b"` (second conjunct), and `5` is not a
`[]string`; yet `Append("a.b", "x")` returns true and replaces the
value: the nested value has the defined map type `FreeformEntry`, the
type assertion `.(map[string]any)` fails on it, and the traversal
replaces it with a fresh empty map in which the leaf is then created. -/
theorem c6_counterexample :
    keyValuesAdjust [("a", .vmap true [("b", .vint 5)])] []
      = [("a", .vmap true [("b", .vint 5)])]
    ∧ bindingsPath [("a", .vmap true [("b", .vint 5)])] (goSplit "a.b") = [.vint 5]
    ∧ Append ((⟨ShapeTag.freeform, Level.INFO,
          ([("a", .vmap true [("b", .vint 5)])] : FreeformEntry)⟩ : DynEntry) :: [])
        "a.b" GoTy.tstring [.vstr "x"]
      = (true, (⟨ShapeTag.freeform, Level.INFO,
          ([("a", .vmap false [("b", .vslice .tstring [.vstr "x"])])] : FreeformEntry)⟩
            : DynEntry) :: []) :=
  ⟨rfl, rfl, rfl⟩

/-- Claim C7 (amended): during dotted-path traversal, for every
non-terminal segment whose current value is present and is an unnamed
`map[string]any` mapping, the mutator descends into that existing
mapping without replacing it, and every key of it other than the next
segment keeps its binding; when the present value is anything else —
including a nested mapping of the defined type `FreeformEntry` — it is
replaced by a new empty mapping. -/
theorem c7_amended (m : FreeformEntry) (s r : String) (rs : List String) (v : GoVal) :
    (∀ inner : FreeformEntry, mapLookup m s = some (.vmap false inner) →
        (adjustSegs (leafSet v) s (r :: rs) m).1
          = mapInsert m s (.vmap false (adjustSegs (leafSet v) r rs inner).1)
        ∧ ∀ j, j ≠ r →
            mapLookup (adjustSegs (leafSet v) r rs inner).1 j = mapLookup inner j)
    ∧ (∀ w : GoVal, mapLookup m s = some w → (∀ inner, w ≠ .vmap false inner) →
        (adjustSegs (leafSet v) s (r :: rs) m).1
          = mapInsert m s (.vmap false (adjustSegs (leafSet v) r rs ([] : FreeformEntry)).1)) := by
  constructor
  · intro inner hm
    have hdt : descendTarget m s = inner := by simp [descendTarget, hm]
    rw [adjustSegs_cons, hdt]
    exact ⟨rfl, fun j hj => mapLookup_adjustSegs_leafSet_ne rs r j inner v hj⟩
  · intro w hm hw
    have hdt : descendTarget m s = [] := by
      cases w with
      | vmap named inner =>
        cases named with
        | false => exact absurd rfl (hw inner)
        | true => simp [descendTarget, hm]
      | vnull => simp [descendTarget, hm]
      | vbool b => simp [descendTarget, hm]
      | vint n => simp [descendTarget, hm]
      | vstr s0 => simp [descendTarget, hm]
      | vslice t xs => simp [descendTarget, hm]
    rw [adjustSegs_cons, hdt]

/-- Witness for C7 (amended): the entry `\x7b"a": \x7b"x": 1\x7d\x7d`
with a plain nested map; writing through `"a.b"` descends into the
existing map and preserves its binding for `"x"`. -/
theorem c7_witness :
    (adjustSegs (leafSet (.vbool true)) "a" ["b"]
        ([("a", .vmap false [("x", .vint 1)])] : FreeformEntry)).1
      = mapInsert [("a", .vmap false [("x", .vint 1)])] "a"
          (.vmap false (adjustSegs (leafSet (.vbool true)) "b" []
            ([("x", .vint 1)] : FreeformEntry)).1)
    ∧ mapLookup (adjustSegs (leafSet (.vbool true)) "b" []
        ([("x", .vint 1)] : FreeformEntry)).1 "x"
      = mapLookup [("x", .vint 1)] "x" := by
  have h := (c7_amended [("a", .vmap false [("x", .vint 1)])] "a" "b" [] (.vbool true)).1
    [("x", .vint 1)] rfl
  exact ⟨h.1, h.2 "x" (by decide)⟩

/-- Counterexample to C7 as stated: in the entry
`\x7b"a": FreeformEntry\x7b"x": 1\x7d\x7d` the value present at the
non-terminal segment `"a"` is itself a nested mapping (first
conjunct), yet `Add("a.b", true)` does not descend into it: the value
has the defined map type `FreeformEntry`, the type assertion
`.(map[string]any)` fails, and the mapping is replaced by a new empty
one, losing the stored key `"x"` (second conjunct). -/
theorem c7_counterexample :
    mapLookup [("a", .vmap true [("x", .vint 1)])] "a" = some (.vmap true [("x", .vint 1)])
    ∧ kvOverwrite "a.b" (.vbool true) [("a", .vmap true [("x", .vint 1)])]
      = [("a", .vmap false [("b", .vbool true)])] :=
  ⟨rfl, rfl⟩

/-- Claim C5: the code panics on odd-length variadic input: with a
freeform entry in the context, `Add(ctx, "a")` reaches
`toKeyValues`, whose loop reads `args[i+1]` at `i+1 == len(args)` —
an index-out-of-range runtime panic, modeled as `Except.error`.  This
contradicts the claim that every public operation terminates normally
and reports failure only through its boolean result. -/
theorem c5_theorem :
    Add (addEntry ShapeTag.freeform [] [] []) [.vstr "a"] = .error () := rfl

/-- Claim C3: starting from an empty freeform entry,
`Add("user.name", "test", "user.count", 42, "user.flags.flag", true)`
produces exactly the nested structure
`\x7b"user": \x7b"count": 42, "flags": \x7b"flag": true\x7d,
"name": "test"\x7d\x7d` (second conjunct: its JSON rendering with keys
sorted, as the spec displays it). -/
theorem c3 :
    Add (addEntry ShapeTag.freeform [] [] [])
        [.vstr "user.name", .vstr "test", .vstr "user.count", .vint 42,
         .vstr "user.flags.flag", .vbool true]
      = .ok (true, [⟨ShapeTag.freeform, Level.INFO,
          ([("user", .vmap false
            [("name", .vstr "test"), ("count", .vint 42),
             ("flags", .vmap false [("flag", .vbool true)])])] : FreeformEntry)⟩])
    ∧ marshalData ShapeTag.freeform
        [("user", .vmap false
          [("name", .vstr "test"), ("count", .vint 42),
           ("flags", .vmap false [("flag", .vbool true)])])]
      = "\x7b\"user\":\x7b\"count\":42,\"flags\":\x7b\"flag\":true\x7d,\"name\":\"test\"\x7d\x7d" :=
  ⟨rfl, by decide⟩

/-- Claim C4 (amended): the by-shape lookup resolves an entry of shape
`T` exactly when the most recently attached entry has shape `T`:
attaching an entry of any shape — the same or a different one —
shadows every entry attached before it, because all entries share the
single context key `eKey` and the type assertion is applied only to
the nearest stored value. -/
theorem c4_amended (t t' : ShapeTag) (d : ShapeData t) (d' : ShapeData t')
    (opts opts' : List (option → option)) (ctx : Ctx) :
    ((getEntry t (addEntry t' d' opts' ctx)).isSome ↔ t' = t)
    ∧ getEntry t (addEntry t d opts ctx) = some ⟨(applyOptions opts).entryLevel, d⟩ := by
  constructor
  · simp only [getEntry, addEntry, DynEntry.as]
    split
    · next h => simp [h]
    · next h => simp [h]
  · show DynEntry.as t ⟨t, (applyOptions opts).entryLevel, d⟩ = _
    unfold DynEntry.as
    rw [dif_pos rfl]

/-- Counterexample to C4 as stated: a freeform entry is attached and
then an entry of a different shape is attached on top (first
conjunct shows both sit in the branch); the claim says the freeform
entry remains resolvable, but the lookup returns absent. -/
theorem c4_counterexample :
    addEntry (ShapeTag.custom 0) (GoVal.vint 7) [] (addEntry ShapeTag.freeform [] [] [])
      = [⟨ShapeTag.custom 0, Level.INFO, (GoVal.vint 7 : ShapeData (ShapeTag.custom 0))⟩,
         ⟨ShapeTag.freeform, Level.INFO, ([] : FreeformEntry)⟩]
    ∧ getEntry ShapeTag.freeform
        (addEntry (ShapeTag.custom 0) (GoVal.vint 7) [] (addEntry ShapeTag.freeform [] [] []))
      = none :=
  ⟨rfl, rfl⟩

theorem bidxAux_cons_self (c : Char) (l : List Char) : bidxAux c (c :: l) = some 0 := by
  simp [bidxAux]

theorem bidxAux_cons_ne (c x : Char) (l : List Char) (h : x ≠ c) :
    bidxAux c (x :: l) = (bidxAux c l).map (· + 1) := by
  simp [bidxAux, h]

theorem bidxAux_cons_ne_zero (c x : Char) (l : List Char) (h : x ≠ c) :
    bidxAux c (x :: l) ≠ some 0 := by
  rw [bidxAux_cons_ne c x l h]
  cases bidxAux c l <;> simp

theorem bidxAux_eq_none (c : Char) (l : List Char) (h : ∀ x ∈ l, x ≠ c) :
    bidxAux c l = none := by
  induction l with
  | nil => rfl
  | cons x xs ih =>
    rw [bidxAux_cons_ne c x xs (h x (by simp))]
    rw [ih (fun y hy => h y (by simp [hy]))]
    rfl

theorem digitChar_ne_lbrace (k : Nat) : digitChar k ≠ lbrace := by
  unfold digitChar
  split <;> decide

theorem natDigits_all (fuel n : Nat) :
    ∀ c ∈ natDigits fuel n, ∃ k, c = digitChar k := by
  induction fuel generalizing n with
  | zero => simp [natDigits]
  | succ f ih =>
    intro c hc
    simp only [natDigits] at hc
    split at hc
    · exact ⟨n, by simpa using hc⟩
    · rcases List.mem_append.1 hc with hc | hc
      · exact ih (n / 10) c hc
      · exact ⟨n % 10, by simpa using hc⟩

theorem marshalInt_no_lbrace (i : Int) : bidx (marshalInt i) lbrace = none := by
  cases i with
  | ofNat n =>
    apply bidxAux_eq_none
    intro x hx
    obtain ⟨k, rfl⟩ := natDigits_all (n + 1) n x hx
    exact digitChar_ne_lbrace k
  | negSucc n =>
    apply bidxAux_eq_none
    intro x hx
    simp only [marshalInt, String.toList, String.data_append] at hx
    rcases List.mem_append.1 hx with hx | hx
    · have : x = '-' := by simpa using hx
      subst this
      decide
    · obtain ⟨k, rfl⟩ := natDigits_all (n + 2) (n + 1) x hx
      exact digitChar_ne_lbrace k

theorem marshal_lbrace_iff (v : GoVal) :
    bidx (marshalVal v) lbrace = some 0 ↔ ∃ b m, v = .vmap b m := by
  constructor
  · intro h
    cases v with
    | vmap b m => exact ⟨b, m, rfl⟩
    | vnull => exact absurd h (by decide)
    | vbool b => cases b <;> exact absurd h (by decide)
    | vint n => rw [show marshalVal (.vint n) = marshalInt n from rfl] at h
                rw [marshalInt_no_lbrace n] at h
                cases h
    | vstr s =>
      exfalso
      have hto : (marshalVal (.vstr s)).toList = '"' :: ((jsonEscape s).data ++ ['"']) := by
        simp [marshalVal, String.toList, String.data_append]
      rw [bidx, hto] at h
      exact bidxAux_cons_ne_zero lbrace '"' _ (by decide) h
    | vslice t xs =>
      exfalso
      have hto : (marshalVal (.vslice t xs)).toList = '[' :: ((marshalList xs).data ++ [']']) := by
        simp [marshalVal, String.toList, String.data_append]
      rw [bidx, hto] at h
      exact bidxAux_cons_ne_zero lbrace '[' _ (by decide) h
  · rintro ⟨b, m, rfl⟩
    have hto : (marshalVal (.vmap b m)).toList
        = lbrace :: ((joinRendered (sortRendered (renderEntries m))).data ++ [rbrace]) := by
      simp [marshalVal, String.toList, String.data_append]
      decide
    rw [bidx, hto]
    exact bidxAux_cons_self lbrace _

theorem renderEntries_cons (p : String × GoVal) (ps : List (String × GoVal)) :
    renderEntries (p :: ps) = (p.1, marshalVal p.2) :: renderEntries ps := by
  obtain ⟨k, v⟩ := p
  rfl

theorem insRendered_cons (p : String × String) (l : List (String × String)) :
    ∃ q qs, insRendered p l = q :: qs := by
  cases l with
  | nil => exact ⟨p, [], rfl⟩
  | cons q0 rest =>
    cases h : strLe p.1 q0.1
    · exact ⟨q0, insRendered p rest, by simp [insRendered, h]⟩
    · exact ⟨p, q0 :: rest, by simp [insRendered, h]⟩

theorem joinRendered_cons_data (q : String × String) (qs : List (String × String)) :
    ∃ u, (joinRendered (q :: qs)).data = '"' :: u := by
  obtain ⟨k, sv⟩ := q
  cases qs with
  | nil =>
    exact ⟨(jsonEscape k).data ++ '"' :: ':' :: sv.data,
      by simp [joinRendered, String.data_append]⟩
  | cons q2 rest =>
    exact ⟨(jsonEscape k).data ++ '"' :: ':' :: (sv.data ++ ',' :: (joinRendered (q2 :: rest)).data),
      by simp [joinRendered, String.data_append]⟩

theorem marshal_vmap_rbrace_iff (b : Bool) (m : List (String × GoVal)) :
    bidx (marshalVal (.vmap b m)) rbrace = some 1 ↔ m = [] := by
  cases m with
  | nil =>
    have h0 : marshalVal (.vmap b []) = "\x7b\x7d" := rfl
    rw [h0]
    simp
    decide
  | cons p ps =>
    simp only [iff_false_intro (List.cons_ne_nil p ps), iff_false]
    intro hcontra
    obtain ⟨q, qs, hsort⟩ := insRendered_cons (p.1, marshalVal p.2) (sortRendered (renderEntries ps))
    have hsort2 : sortRendered (renderEntries (p :: ps)) = q :: qs := by
      rw [renderEntries_cons]
      show insRendered (p.1, marshalVal p.2) (sortRendered (renderEntries ps)) = q :: qs
      exact hsort
    obtain ⟨u, hu⟩ := joinRendered_cons_data q qs
    have hto : (marshalVal (.vmap b (p :: ps))).toList
        = lbrace :: '"' :: (u ++ [rbrace]) := by
      simp only [marshalVal, String.toList, String.data_append, hsort2, hu]
      simp
      decide
    rw [bidx, hto] at hcontra
    rw [bidxAux_cons_ne rbrace lbrace _ (by decide)] at hcontra
    rw [bidxAux_cons_ne rbrace '"' _ (by decide)] at hcontra
    cases hrest : bidxAux rbrace (u ++ [rbrace]) with
    | none => rw [hrest] at hcontra; cases hcontra
    | some k => rw [hrest] at hcontra; simp at hcontra

theorem comma_iff (t : ShapeTag) (d : ShapeData t)
    (h : bidx (marshalData t d) lbrace = some 0) :
    (bidx (marshalData t d) rbrace = some 1) ↔ hasOriginalKeys t d = false := by
  cases t with
  | freeform =>
    show (bidx (marshalVal (.vmap true d)) rbrace = some 1) ↔ _
    rw [marshal_vmap_rbrace_iff]
    cases d <;> simp [hasOriginalKeys]
  | custom n =>
    cases d with
    | vmap b mm =>
      show (bidx (marshalVal (.vmap b mm)) rbrace = some 1) ↔ _
      rw [marshal_vmap_rbrace_iff]
      cases mm <;> simp [hasOriginalKeys]
    | vnull => obtain ⟨b, m, hh⟩ := (marshal_lbrace_iff _).1 h; cases hh
    | vbool bb => obtain ⟨b, m, hh⟩ := (marshal_lbrace_iff _).1 h; cases hh
    | vint nn => obtain ⟨b, m, hh⟩ := (marshal_lbrace_iff _).1 h; cases hh
    | vstr ss => obtain ⟨b, m, hh⟩ := (marshal_lbrace_iff _).1 h; cases hh
    | vslice tt xs => obtain ⟨b, m, hh⟩ := (marshal_lbrace_iff _).1 h; cases hh

theorem print_found (t : ShapeTag) (ctx : Ctx) (e : EntryOf t)
    (opts : List (option → option)) (sysNow : String)
    (h : getEntry t ctx = some e) :
    print t ctx opts sysNow =
      if e.level.toNat < (applyOptions opts).printLevel.toNat then (false, [])
      else (true, [spliceMeta e.level (timerNow (applyOptions opts) sysNow)
                    (marshalData t e.data)]) := by
  simp only [print, h]

/-- Claim C2: for every context holding an entry and every resolved
print threshold, `print` returns false and writes no bytes to the
output sink when the entry's level is strictly below the threshold;
otherwise it returns true and writes exactly one JSON document — the
single serialized entry — to the sink.  (Marshaling and sink writes
always succeed in this model: the value universe is marshalable and
the sink is an accumulator.) -/
theorem c2 (t : ShapeTag) (ctx : Ctx) (e : EntryOf t) (opts : List (option → option))
    (sysNow : String) (h : getEntry t ctx = some e) :
    (e.level.toNat < (applyOptions opts).printLevel.toNat →
        print t ctx opts sysNow = (false, []))
    ∧ (¬ e.level.toNat < (applyOptions opts).printLevel.toNat →
        print t ctx opts sysNow
          = (true, [spliceMeta e.level (timerNow (applyOptions opts) sysNow)
                     (marshalData t e.data)])) := by
  rw [print_found t ctx e opts sysNow h]
  constructor
  · intro hlt; rw [if_pos hlt]
  · intro hn; rw [if_neg hn]

/-- Witness for C2: a DEBUG entry against the default INFO threshold
is suppressed with no writes; an INFO entry is emitted with exactly
one write. -/
theorem c2_witness :
    print ShapeTag.freeform
        [⟨ShapeTag.freeform, Level.DEBUG, ([] : FreeformEntry)⟩] [] "T0" = (false, [])
    ∧ print ShapeTag.freeform
        [⟨ShapeTag.freeform, Level.INFO, ([] : FreeformEntry)⟩] [] "T0"
      = (true, [spliceMeta Level.INFO (timerNow (applyOptions []) "T0")
          (marshalData ShapeTag.freeform ([] : FreeformEntry))]) :=
  ⟨(c2 ShapeTag.freeform [⟨ShapeTag.freeform, Level.DEBUG, ([] : FreeformEntry)⟩]
      ⟨Level.DEBUG, ([] : FreeformEntry)⟩ [] "T0" rfl).1 (by decide),
   (c2 ShapeTag.freeform [⟨ShapeTag.freeform, Level.INFO, ([] : FreeformEntry)⟩]
      ⟨Level.INFO, ([] : FreeformEntry)⟩ [] "T0" rfl).2 (by decide)⟩

/-- Claim C1: for every resolvable entry printed at or above the
threshold, if its data marshals to JSON text beginning with `\x7b`,
`print` splices the metadata prefix
`\x7b"@level":"<LEVEL>","@time":"<RFC3339>"` in place of the opening
brace, with a trailing comma exactly when the marshaled object has at
least one original key and no comma when the object was empty (the
code also appends a newline in this branch); if the marshaled text
does not begin with `\x7b`, `print` writes the marshaled bytes
unmodified with no metadata added. -/
theorem c1 (t : ShapeTag) (ctx : Ctx) (e : EntryOf t) (opts : List (option → option))
    (sysNow : String) (hget : getEntry t ctx = some e)
    (hnlt : ¬ e.level.toNat < (applyOptions opts).printLevel.toNat) :
    (bidx (marshalData t e.data) lbrace = some 0 →
        print t ctx opts sysNow
          = (true, [metaPre e.level (timerNow (applyOptions opts) sysNow)
              (hasOriginalKeys t e.data) ++ (marshalData t e.data).drop 1 ++ "\n"]))
    ∧ (bidx (marshalData t e.data) lbrace ≠ some 0 →
        print t ctx opts sysNow = (true, [marshalData t e.data])) := by
  have hp : print t ctx opts sysNow
      = (true, [spliceMeta e.level (timerNow (applyOptions opts) sysNow)
          (marshalData t e.data)]) := by
    rw [print_found t ctx e opts sysNow hget, if_neg hnlt]
  constructor
  · intro hstart
    rw [hp]
    unfold spliceMeta
    rw [if_pos hstart]
    have hc := comma_iff t e.data hstart
    cases hk : hasOriginalKeys t e.data
    · rw [if_pos (hc.mpr hk)]
    · have hne : ¬ bidx (marshalData t e.data) rbrace = some 1 := by
        intro hh
        have hcf := hc.mp hh
        rw [hk] at hcf
        exact Bool.noConfusion hcf
      rw [if_neg hne]
  · intro hn
    rw [hp]
    unfold spliceMeta
    rw [if_neg hn]

/-- Witness for C1: a nonempty freeform entry gets the spliced prefix
with a trailing comma; a custom entry marshaling to a JSON array is
written unmodified. -/
theorem c1_witness :
    print ShapeTag.freeform
        [⟨ShapeTag.freeform, Level.INFO, ([("a", GoVal.vint 1)] : FreeformEntry)⟩] [] "T0"
      = (true, [metaPre Level.INFO (timerNow (applyOptions []) "T0")
          (hasOriginalKeys ShapeTag.freeform [("a", GoVal.vint 1)])
          ++ (marshalData ShapeTag.freeform [("a", GoVal.vint 1)]).drop 1 ++ "\n"])
    ∧ print (ShapeTag.custom 0)
        [⟨ShapeTag.custom 0, Level.INFO, (GoVal.vslice .tstring [.vstr "a"]
            : ShapeData (ShapeTag.custom 0))⟩] [] "T0"
      = (true, [marshalData (ShapeTag.custom 0) (GoVal.vslice .tstring [.vstr "a"])]) :=
  ⟨(c1 ShapeTag.freeform
      [⟨ShapeTag.freeform, Level.INFO, ([("a", GoVal.vint 1)] : FreeformEntry)⟩]
      ⟨Level.INFO, ([("a", GoVal.vint 1)] : FreeformEntry)⟩ [] "T0" rfl (by decide)).1
      (by decide),
   (c1 (ShapeTag.custom 0)
      [⟨ShapeTag.custom 0, Level.INFO, (GoVal.vslice .tstring [.vstr "a"]
          : ShapeData (ShapeTag.custom 0))⟩]
      ⟨Level.INFO, (GoVal.vslice .tstring [.vstr "a"] : ShapeData (ShapeTag.custom 0))⟩
      [] "T0" rfl (by decide)).2 (by decide)⟩

/-- Claim C9: for every request processed by the middleware, the
`HttpData` headers are: exactly the explicitly listed headers' values
when an explicit header list was configured (the all-headers flag is
ignored even when also set, since `opt` is arbitrary here); all
request headers when only the all-headers flag is set; and no headers
mapping when neither is configured. -/
theorem c9 (opt : option) (method path : String)
    (reqHeaders : List (String × List String)) (captured : String) (sysSince : Int) :
    (opt.someHeaders ≠ [] →
        (middlewareHttpData opt method path reqHeaders captured sysSince).headers
          = some (opt.someHeaders.map (fun h => (h, headerGet reqHeaders h))))
    ∧ (opt.someHeaders = [] → opt.allHeaders = true →
        (middlewareHttpData opt method path reqHeaders captured sysSince).headers
          = some (reqHeaders.map (fun p => (p.1, headerGet reqHeaders p.1))))
    ∧ (opt.someHeaders = [] → opt.allHeaders = false →
        (middlewareHttpData opt method path reqHeaders captured sysSince).headers
          = none) := by
  refine ⟨?_, ?_, ?_⟩
  · intro h
    have hlen : opt.someHeaders.length > 0 := List.length_pos.2 h
    simp [middlewareHttpData, hlen]
  · intro h1 h2
    simp [middlewareHttpData, h1, h2]
  · intro h1 h2
    simp [middlewareHttpData, h1, h2]

/-- Witness for C9 at a request carrying `X-Header: x` and
`Y-Header: y`: with both an explicit list and the all-headers flag
set, only the listed header is captured; with only the flag, both
are; with neither, none. -/
theorem c9_witness :
    (middlewareHttpData { defaultOption with someHeaders := ["X-Header"], allHeaders := true }
        "POST" "/path" [("X-Header", ["x"]), ("Y-Header", ["y"])] "" 0).headers
      = some [("X-Header", "x")]
    ∧ (middlewareHttpData { defaultOption with allHeaders := true }
        "POST" "/path" [("X-Header", ["x"]), ("Y-Header", ["y"])] "" 0).headers
      = some [("X-Header", "x"), ("Y-Header", "y")]
    ∧ (middlewareHttpData defaultOption
        "POST" "/path" [("X-Header", ["x"]), ("Y-Header", ["y"])] "" 0).headers
      = none :=
  ⟨(c9 { defaultOption with someHeaders := ["X-Header"], allHeaders := true }
      "POST" "/path" [("X-Header", ["x"]), ("Y-Header", ["y"])] "" 0).1 (by decide),
   (c9 { defaultOption with allHeaders := true }
      "POST" "/path" [("X-Header", ["x"]), ("Y-Header", ["y"])] "" 0).2.1 rfl rfl,
   (c9 defaultOption
      "POST" "/path" [("X-Header", ["x"]), ("Y-Header", ["y"])] "" 0).2.2 rfl rfl⟩

/-- Claim C10: each level setter, when an entry of the matching shape
is resolvable, sets that entry's level to its named value and returns
true, leaving the entry's data and the rest of the branch unchanged;
when no entry of the shape is resolvable it returns false and changes
nothing. -/
theorem c10 (t : ShapeTag) (ctx : Ctx) :
    (getEntry t ctx = none →
        debug t ctx = (false, ctx) ∧ info t ctx = (false, ctx) ∧ warn t ctx = (false, ctx)
          ∧ err t ctx = (false, ctx) ∧ fatal t ctx = (false, ctx))
    ∧ (∀ e : EntryOf t, getEntry t ctx = some e →
        ∃ rest, ctx = (⟨t, e.level, e.data⟩ : DynEntry) :: rest
          ∧ debug t ctx = (true, (⟨t, Level.DEBUG, e.data⟩ : DynEntry) :: rest)
          ∧ info t ctx = (true, (⟨t, Level.INFO, e.data⟩ : DynEntry) :: rest)
          ∧ warn t ctx = (true, (⟨t, Level.WARN, e.data⟩ : DynEntry) :: rest)
          ∧ err t ctx = (true, (⟨t, Level.ERROR, e.data⟩ : DynEntry) :: rest)
          ∧ fatal t ctx = (true, (⟨t, Level.FATAL, e.data⟩ : DynEntry) :: rest)) := by
  constructor
  · intro h
    cases ctx with
    | nil => exact ⟨rfl, rfl, rfl, rfl, rfl⟩
    | cons hd rest =>
      have hne : ¬ hd.shape = t := by
        intro hsh
        simp only [getEntry, DynEntry.as] at h
        rw [dif_pos hsh] at h
        cases h
      simp [debug, info, warn, err, fatal, hne]
  · intro e he
    cases ctx with
    | nil => simp [getEntry] at he
    | cons hd rest =>
      simp only [getEntry, DynEntry.as] at he
      by_cases hsh : hd.shape = t
      · rw [dif_pos hsh] at he
        injection he with he2
        subst hsh
        subst he2
        refine ⟨rest, ?_, ?_, ?_, ?_, ?_, ?_⟩ <;>
          simp [debug, info, warn, err, fatal]
      · rw [dif_neg hsh] at he
        cases he

/-- Witness for C10 at a concrete context holding a freeform entry. -/
theorem c10_witness :
    ∃ rest, ([⟨ShapeTag.freeform, Level.INFO, ([("a", GoVal.vint 1)] : FreeformEntry)⟩] : Ctx)
        = (⟨ShapeTag.freeform, Level.INFO, ([("a", GoVal.vint 1)] : FreeformEntry)⟩
            : DynEntry) :: rest
      ∧ debug ShapeTag.freeform
          [⟨ShapeTag.freeform, Level.INFO, ([("a", GoVal.vint 1)] : FreeformEntry)⟩]
        = (true, (⟨ShapeTag.freeform, Level.DEBUG, ([("a", GoVal.vint 1)] : FreeformEntry)⟩
            : DynEntry) :: rest)
      ∧ info ShapeTag.freeform
          [⟨ShapeTag.freeform, Level.INFO, ([("a", GoVal.vint 1)] : FreeformEntry)⟩]
        = (true, (⟨ShapeTag.freeform, Level.INFO, ([("a", GoVal.vint 1)] : FreeformEntry)⟩
            : DynEntry) :: rest)
      ∧ warn ShapeTag.freeform
          [⟨ShapeTag.freeform, Level.INFO, ([("a", GoVal.vint 1)] : FreeformEntry)⟩]
        = (true, (⟨ShapeTag.freeform, Level.WARN, ([("a", GoVal.vint 1)] : FreeformEntry)⟩
            : DynEntry) :: rest)
      ∧ err ShapeTag.freeform
          [⟨ShapeTag.freeform, Level.INFO, ([("a", GoVal.vint 1)] : FreeformEntry)⟩]
        = (true, (⟨ShapeTag.freeform, Level.ERROR, ([("a", GoVal.vint 1)] : FreeformEntry)⟩
            : DynEntry) :: rest)
      ∧ fatal ShapeTag.freeform
          [⟨ShapeTag.freeform, Level.INFO, ([("a", GoVal.vint 1)] : FreeformEntry)⟩]
        = (true, (⟨ShapeTag.freeform, Level.FATAL, ([("a", GoVal.vint 1)] : FreeformEntry)⟩
            : DynEntry) :: rest) :=
  (c10 ShapeTag.freeform
      [⟨ShapeTag.freeform, Level.INFO, ([("a", GoVal.vint 1)] : FreeformEntry)⟩]).2
    ⟨Level.INFO, ([("a", GoVal.vint 1)] : FreeformEntry)⟩ rfl

end Logs
